import Mathlib

/-!
# Verification of the yobicrypto Balloon-hashing / proof-of-work core

Shallow embedding of the `balloon`, `pow`, `memory` and `hash` modules of
the yobicash/yobicrypto repository.  Machine integers are modelled as `Nat`
(with explicit `% 2^w` where overflow matters), byte strings as `List Nat`,
fallible Rust functions (`Result<T>`) as `Except ErrorKind T`, and the
SHA-512 primitive as an abstract function `H : Bytes → Bytes`.
-/

namespace Yobicrypto

/-- Byte strings (each entry is morally a byte, `< 256`). -/
abbrev Bytes := List Nat

/-- The error kinds of `error.rs` (`ErrorKind`). -/
inductive ErrorKind where
  | InvalidArgument
  | AlreadyFound
  | NotFound
  | OutOfBound
  | InvalidFormat
  | NotSupported
  | InvalidLength
  | InvalidDigest
  | FromFailure
  | SerializationFailure
  | DeserializationFailure
  | IOFailure
deriving DecidableEq, Repr

instance {ε α : Type} [DecidableEq ε] [DecidableEq α] : DecidableEq (Except ε α) := fun a b =>
  match a, b with
  | .error e, .error e' =>
    if h : e = e' then .isTrue (by rw [h]) else .isFalse (by intro hc; cases hc; exact h rfl)
  | .ok x, .ok x' =>
    if h : x = x' then .isTrue (by rw [h]) else .isFalse (by intro hc; cases hc; exact h rfl)
  | .error _, .ok _ => .isFalse (by intro hc; cases hc)
  | .ok _, .error _ => .isFalse (by intro hc; cases hc)

/-- `u32::max_value()`. -/
def U32MAX : Nat := 4294967295

/-- `u64::max_value()`. -/
def U64MAX : Nat := 18446744073709551615

/-- Big-endian encoding of a `u32` value (`byteorder::WriteBytesExt::write_u32::<BigEndian>`).
Reduces any `Nat` modulo `2^32`, matching the wrap-around of the `u32` type. -/
def be32 (n : Nat) : Bytes :=
  [n / 2 ^ 24 % 256, n / 2 ^ 16 % 256, n / 2 ^ 8 % 256, n % 256]

/-- Big-endian encoding of a `u64` value (`write_u64::<BigEndian>`). -/
def be64 (n : Nat) : Bytes :=
  [n / 2 ^ 56 % 256, n / 2 ^ 48 % 256, n / 2 ^ 40 % 256, n / 2 ^ 32 % 256,
   n / 2 ^ 24 % 256, n / 2 ^ 16 % 256, n / 2 ^ 8 % 256, n % 256]

/-- The big-endian numeric value of a byte string (used to state the
"numerically below" comparisons of the spec). -/
def beNat (b : Bytes) : Nat := b.foldl (fun a x => a * 256 + x) 0

/-- Strict lexicographic comparison of byte strings: the order produced by the
derived `Ord` instance of `Digest` (`hash.rs`, `#[derive(..., Ord, PartialOrd, ...)]`
on a byte array), which `pow.rs` uses for `digest < target_digest`. -/
def lexLt : Bytes → Bytes → Bool
  | [], [] => false
  | [], _ :: _ => true
  | _ :: _, [] => false
  | a :: as_, b :: bs => if a < b then true else if b < a then false else lexLt as_ bs

/-- A well-formed digest value: exactly 64 bytes, each below 256.  This is the
invariant the Rust type `Digest` (a `GenericArray<u8, U64>`) enforces by
construction. -/
def wfDigest (b : Bytes) : Prop := b.length = 64 ∧ ∀ x ∈ b, x < 256

instance : DecidablePred wfDigest := fun b => by unfold wfDigest; infer_instance

/-- `Digest::default()`: 64 zero bytes. -/
def defaultDigest : Bytes := List.replicate 64 0

/-- `Digest::from_bytes` (`hash.rs`): fails `InvalidLength` unless exactly 64 bytes. -/
def digestFromBytes (b : Bytes) : Except ErrorKind Bytes :=
  if b.length ≠ 64 then .error .InvalidLength else .ok b

/-- `BalloonParams` (`balloon.rs`): the three `u32` cost coefficients. -/
structure BalloonParams where
  s_cost : Nat
  t_cost : Nat
  delta : Nat
deriving DecidableEq, Repr

/-- `BalloonParams::default()`: `{s_cost: 1, t_cost: 1, delta: 3}`. -/
def defaultParams : BalloonParams := ⟨1, 1, 3⟩

/-- `BalloonParams::validate` (`balloon.rs`): `InvalidArgument` when `s_cost == 0`,
`t_cost == 0`, or `delta < 3`. -/
def validateParams (p : BalloonParams) : Except ErrorKind Unit :=
  if p.s_cost = 0 then .error .InvalidArgument
  else if p.t_cost = 0 then .error .InvalidArgument
  else if p.delta < 3 then .error .InvalidArgument
  else .ok ()

/-- Bit length of a natural number, via an explicit fuel argument so the kernel
can evaluate it (fuel `n` always suffices for input `n`). -/
def bitLenAux : Nat → Nat → Nat
  | 0, _ => 0
  | fuel + 1, n => if n = 0 then 0 else bitLenAux fuel (n / 2) + 1

/-- Number of bits of `n`: `0` for `0`, otherwise `⌊log₂ n⌋ + 1`. -/
def bitLen (n : Nat) : Nat := bitLenAux n n

/-- Round `n` to the nearest multiple of `u` (assumed `0 < u`), ties to the even
multiple: the IEEE-754 round-to-nearest-even rule restricted to integers. -/
def roundTiesEven (n u : Nat) : Nat :=
  let q := n / u
  let r := n % u
  if 2 * r < u then q * u
  else if u < 2 * r then (q + 1) * u
  else if q % 2 = 0 then q * u else (q + 1) * u

/-- The value of `n as f32` for an unsigned integer `n` (here used for `u32`
inputs, which never overflow `f32`): exact up to `2^24`, otherwise rounded to
the nearest representable value (24-bit significand, ties to even).  Models the
conversion inside `impl From<u32> for Memory` (`memory.rs`):
`Integer::from_f32(n as f32).unwrap()`. -/
def toF32 (n : Nat) : Nat :=
  if n ≤ 2 ^ 24 then n else roundTiesEven n (2 ^ (bitLen n - 24))

/-- The integer obtained by `Memory::from(x)` for a `u32` value `x`, as a
mathematical integer (`rug::Integer` is arbitrary precision). -/
def memF (x : Nat) : Int := (toF32 x : Int)

/-- The value computed by `BalloonParams::memory` once validation has passed:
`64 · (a + (b − 1) · (1 + 2 · (c − 1)))` over `rug::Integer`, where `a`, `b`,
`c` are the three coefficients converted through `From<u32> for Memory`
(which rounds through `f32`), and `64`, `2`, `1` are converted exactly. -/
def memInt (s t d : Nat) : Int :=
  64 * (memF s + (memF t - 1) * (1 + 2 * (memF d - 1)))

/-- `BalloonParams::memory` (`balloon.rs`): validate, then compute the cost
formula over arbitrary-precision integers. -/
def balloonMemory (p : BalloonParams) : Except ErrorKind Int :=
  match validateParams p with
  | .error e => .error e
  | .ok _ => .ok (memInt p.s_cost p.t_cost p.delta)

/-- The loop of `BalloonParams::from_memory` (`balloon.rs`): saturating
increments `x += 1 - x / u32::MAX` of `s_cost`, then `t_cost`, then `delta`,
re-testing `memory() ≥ target` after each single increment; breaks with
`NotFound` when all three coefficients are `u32::MAX`.  The fuel argument
makes the recursion structural; `2^32` fuel is more than the loop can consume. -/
def fromMemoryLoop (target : Int) : Nat → BalloonParams → Except ErrorKind BalloonParams
  | 0, _ => .error .NotFound
  | fuel + 1, p =>
    let p1 : BalloonParams := { p with s_cost := p.s_cost + (1 - p.s_cost / U32MAX) }
    match balloonMemory p1 with
    | .error e => .error e
    | .ok m1 =>
      if target ≤ m1 then .ok p1
      else
        let p2 : BalloonParams := { p1 with t_cost := p1.t_cost + (1 - p1.t_cost / U32MAX) }
        match balloonMemory p2 with
        | .error e => .error e
        | .ok m2 =>
          if target ≤ m2 then .ok p2
          else
            let p3 : BalloonParams := { p2 with delta := p2.delta + (1 - p2.delta / U32MAX) }
            match balloonMemory p3 with
            | .error e => .error e
            | .ok m3 =>
              if target ≤ m3 then .ok p3
              else
                if p3.s_cost = U32MAX ∧ p3.t_cost = U32MAX ∧ p3.delta = U32MAX then
                  .error .NotFound
                else fromMemoryLoop target fuel p3

/-- `BalloonParams::from_memory` (`balloon.rs`): fails `InvalidArgument` when the
target is strictly below the default params' memory, returns the default params
on equality, and otherwise runs the greedy increment loop. -/
def fromMemory (target : Int) : Except ErrorKind BalloonParams :=
  match balloonMemory defaultParams with
  | .error e => .error e
  | .ok dm =>
    if target < dm then .error .InvalidArgument
    else if target = dm then .ok defaultParams
    else fromMemoryLoop target (2 ^ 32) defaultParams

/-! ## Balloon hashing (`BalloonHasher::hash`, `balloon.rs` lines 219–296)

The abstract hash primitive `H` models `Digest::hash` (SHA-512).  The state
threaded through the loops is the pair `(cnt, buf)` of the 32-bit counter and
the buffer of digests. -/

/-- One step of the fill loop `for m in 1..s_cost`:
`buf[m] = H(be32 cnt ‖ buf[m-1])`, then `cnt += 1`. -/
def fillStep (H : Bytes → Bytes) (st : Nat × List Bytes) (m : Nat) : Nat × List Bytes :=
  (st.1 + 1, st.2.set m (H (be32 st.1 ++ st.2.getD (m - 1) [])))

/-- The fill phase: `buf[0] = H(be32 0 ‖ msg ‖ salt)` (with `cnt` going from 0
to 1), then the loop `for m in 1..s_cost`. -/
def fillPhase (H : Bytes → Bytes) (salt : Bytes) (p : BalloonParams) (msg : Bytes) :
    Nat × List Bytes :=
  let buf := (List.replicate p.s_cost defaultDigest).set 0 (H (be32 0 ++ msg ++ salt))
  (List.range' 1 (p.s_cost - 1)).foldl (fillStep H) (1, buf)

/-- The innermost (`delta`) loop body, `for i in 0..delta-1`:
`idx_block = H(be32 t ‖ be32 m ‖ be32 i)` (no counter);
`other_digest = H(be32 cnt ‖ salt ‖ idx_block)`, `cnt += 1`;
`other = (u32 sum of the first 64 bytes of other_digest) % s_cost`;
`buf[m] = H(be32 cnt ‖ buf[m] ‖ buf[other])`, `cnt += 1`.
The `u32` accumulation `other += u32::from(*i)` is modelled by reducing
modulo `2^32` at each addition. -/
def deltaStep (H : Bytes → Bytes) (salt : Bytes) (p : BalloonParams) (t m : Nat)
    (st : Nat × List Bytes) (i : Nat) : Nat × List Bytes :=
  let cnt := st.1
  let buf := st.2
  let idx_block := H (be32 t ++ be32 m ++ be32 i)
  let other_digest := H (be32 cnt ++ salt ++ idx_block)
  let other := ((other_digest.take 64).foldl (fun a x => (a + x) % 2 ^ 32) 0) % p.s_cost
  (cnt + 2, buf.set m (H (be32 (cnt + 1) ++ buf.getD m [] ++ buf.getD other [])))

/-- One step of the mix loop `for m in 1..s_cost-1`:
`prev = buf[(m-1) % s_cost]`; `buf[m] = H(be32 cnt ‖ prev ‖ buf[m])`,
`cnt += 1`; then the `delta` loop. -/
def mixStep (H : Bytes → Bytes) (salt : Bytes) (p : BalloonParams) (t : Nat)
    (st : Nat × List Bytes) (m : Nat) : Nat × List Bytes :=
  let prev := st.2.getD ((m - 1) % p.s_cost) []
  let buf := st.2.set m (H (be32 st.1 ++ prev ++ st.2.getD m []))
  (List.range (p.delta - 1)).foldl (deltaStep H salt p t m) (st.1 + 1, buf)

/-- The mix phase: `for t in 0..t_cost-1 { for m in 1..s_cost-1 { ... } }`
(both ranges as written in the source; `1..s_cost-1` has `s_cost - 2`
elements). -/
def mixPhase (H : Bytes → Bytes) (salt : Bytes) (p : BalloonParams)
    (st : Nat × List Bytes) : Nat × List Bytes :=
  (List.range (p.t_cost - 1)).foldl
    (fun st t => (List.range' 1 (p.s_cost - 2)).foldl (mixStep H salt p t) st) st

/-- The pure computation of `BalloonHasher::hash` after validation: fill phase,
mix phase, result `buf[s_cost - 1]`. -/
def balloonCompute (H : Bytes → Bytes) (salt : Bytes) (p : BalloonParams) (msg : Bytes) :
    Bytes :=
  (mixPhase H salt p (fillPhase H salt p msg)).2.getD (p.s_cost - 1) []

/-- `BalloonHasher::hash` (`balloon.rs`): validate the params, then run the
fill and mix phases (no other failure point exists: writes into a `Vec` and
`Digest::to_bytes` are infallible). -/
def balloonHash (H : Bytes → Bytes) (salt : Bytes) (p : BalloonParams) (msg : Bytes) :
    Except ErrorKind Bytes :=
  match validateParams p with
  | .error e => .error e
  | .ok _ => .ok (balloonCompute H salt p msg)

/-! ## The Section 4.3 algorithm, transcribed from the specification's words

A second, independent rendering of the algorithm used by claim C1: counters are
mathematical naturals prefixed big-endian, the `other` index is the plain
(unbounded) sum of the 64 bytes of `other_digest` reduced mod `s_cost`, and
loop ranges are as the spec states them. -/

/-- Spec: "buf[m] = H(cnt‖buf[m-1])" for each subsequent fill slot. -/
def specFillStep (H : Bytes → Bytes) (st : Nat × List Bytes) (m : Nat) : Nat × List Bytes :=
  (st.1 + 1, st.2.set m (H (be32 st.1 ++ st.2.getD (m - 1) [])))

/-- Spec fill phase: "buf[0] = H(cnt‖msg‖salt)" with `cnt` starting at 0,
then slots `1` up to `s_cost - 1`. -/
def specFill (H : Bytes → Bytes) (salt : Bytes) (p : BalloonParams) (msg : Bytes) :
    Nat × List Bytes :=
  let buf := (List.replicate p.s_cost defaultDigest).set 0 (H (be32 0 ++ msg ++ salt))
  (List.range' 1 (p.s_cost - 1)).foldl (specFillStep H) (1, buf)

/-- Spec inner loop, "for i in 0..delta-1 (exclusive)":
"idx_block = H(be32(t)‖be32(m)‖be32(i)) with no counter prefix,
other_digest = H(cnt‖salt‖idx_block),
other = (sum of the 64 bytes of other_digest, each zero-extended to 32 bits)
mod s_cost, and buf[m] = H(cnt‖buf[m]‖buf[other])". -/
def specDeltaStep (H : Bytes → Bytes) (salt : Bytes) (p : BalloonParams) (t m : Nat)
    (st : Nat × List Bytes) (i : Nat) : Nat × List Bytes :=
  let cnt := st.1
  let buf := st.2
  let idx_block := H (be32 t ++ be32 m ++ be32 i)
  let other_digest := H (be32 cnt ++ salt ++ idx_block)
  let other := (other_digest.foldl (· + ·) 0) % p.s_cost
  (cnt + 2, buf.set m (H (be32 (cnt + 1) ++ buf.getD m [] ++ buf.getD other [])))

/-- Spec mix step for one `m`: "buf[m] = H(cnt‖buf[(m-1) mod s_cost]‖buf[m])",
then the `delta` loop. -/
def specMixStep (H : Bytes → Bytes) (salt : Bytes) (p : BalloonParams) (t : Nat)
    (st : Nat × List Bytes) (m : Nat) : Nat × List Bytes :=
  let prev := st.2.getD ((m - 1) % p.s_cost) []
  let buf := st.2.set m (H (be32 st.1 ++ prev ++ st.2.getD m []))
  (List.range (p.delta - 1)).foldl (specDeltaStep H salt p t m) (st.1 + 1, buf)

/-- Spec mix phase: "t over 0..t_cost-1 (exclusive) and m over 1..s_cost-1
(exclusive at both ends)". -/
def specMix (H : Bytes → Bytes) (salt : Bytes) (p : BalloonParams)
    (st : Nat × List Bytes) : Nat × List Bytes :=
  (List.range (p.t_cost - 1)).foldl
    (fun st t => (List.range' 1 (p.s_cost - 2)).foldl (specMixStep H salt p t) st) st

/-- The digest computed by the Section 4.3 algorithm as the spec words it:
"the result is buf[s_cost-1]". -/
def specBalloon (H : Bytes → Bytes) (salt : Bytes) (p : BalloonParams) (msg : Bytes) :
    Bytes :=
  (specMix H salt p (specFill H salt p msg)).2.getD (p.s_cost - 1) []

/-! ## Proof of work (`pow.rs`) -/

/-- The 64-byte threshold built by `PoWTarget::new(bits)`: the first 8 bytes
are `u64::MAX >> bits` big-endian, the remaining 56 bytes are `0xFF`. -/
def targetBytes (bits : Nat) : Bytes :=
  be64 (U64MAX >>> bits) ++ List.replicate 56 255

/-- `PoWTarget::new` (`pow.rs`): fails `OutOfBound` when `bits > 63`, otherwise
builds the threshold bytes and turns them into a `Digest` via
`Digest::from_bytes` (a length check). -/
def powTargetNew (bits : Nat) : Except ErrorKind Bytes :=
  if bits > 63 then .error .OutOfBound else digestFromBytes (targetBytes bits)

/-- `BigEndian::read_u64`: the numeric value of the first 8 bytes. -/
def readU64BE (b : Bytes) : Nat := (b.take 8).foldl (fun a x => a * 256 + x) 0

/-- `u64::leading_zeros`. -/
def leadingZeros64 (n : Nat) : Nat := 64 - bitLen n

/-- `PoWTarget::bits` (`pow.rs`): leading zeros of the first 8 bytes read
big-endian. -/
def powTargetBits (d : Bytes) : Nat := leadingZeros64 (readU64BE d)

/-- The `PoW` struct (`pow.rs`). -/
structure PoW where
  salt : Bytes
  params : BalloonParams
  difficulty : Nat
  nonce : Option Nat
  digest : Option Bytes
deriving DecidableEq, Repr

/-- `PoW::target` (`pow.rs`): re-checks `difficulty ∈ [3,63]`, then
`PoWTarget::new(difficulty)`.  We return the underlying digest directly
(`PoWTarget` is a newtype over `Digest`). -/
def powTarget (pow : PoW) : Except ErrorKind Bytes :=
  if pow.difficulty < 3 ∨ pow.difficulty > 63 then .error .OutOfBound
  else powTargetNew pow.difficulty

/-- The digest a `PoW` computes for a candidate nonce:
`hasher.hash(salt ‖ be64(nonce))` with a fresh `BalloonHasher{salt, params}`. -/
def hashAt (H : Bytes → Bytes) (pow : PoW) (nonce : Nat) : Bytes :=
  balloonCompute H pow.salt pow.params (pow.salt ++ be64 nonce)

/-- The `'mining` loop of `PoW::mine` (`pow.rs`), starting at a given nonce:
hash `salt ‖ be64(nonce)`; on `digest < target` store the pair and stop; at
`nonce == u64::MAX` stop unchanged; else advance.  Structural fuel (`2^64`
from nonce 0) covers the whole search space, so the fuel-exhausted branch is
never reached; it returns the object unchanged, like nonce exhaustion. -/
def mineLoop (H : Bytes → Bytes) (pow : PoW) (targetD : Bytes) :
    Nat → Nat → Except ErrorKind PoW
  | 0, _ => .ok pow
  | fuel + 1, nonce =>
    match balloonHash H pow.salt pow.params (pow.salt ++ be64 nonce) with
    | .error e => .error e
    | .ok digest =>
      if lexLt digest targetD then
        .ok { pow with nonce := some nonce, digest := some digest }
      else if nonce = U64MAX then .ok pow
      else mineLoop H pow targetD fuel (nonce + 1)

/-- `PoW::mine` (`pow.rs`): compute the target digest, then run the linear
nonce search from 0.  The mutation of `self` is modelled by returning the
updated `PoW`. -/
def powMine (H : Bytes → Bytes) (pow : PoW) : Except ErrorKind PoW :=
  match powTarget pow with
  | .error e => .error e
  | .ok targetD => mineLoop H pow targetD (2 ^ 64) 0

/-- `PoW::verify` (`pow.rs`): `Ok(false)` when no digest is stored; with a
stored digest, `InvalidDigest` when `digest >= target_digest`; `Ok(false)`
when no nonce is stored; otherwise recompute the hash from `(salt, nonce)` and
fail `InvalidDigest` on mismatch, else `Ok(true)`. -/
def powVerify (H : Bytes → Bytes) (pow : PoW) : Except ErrorKind Bool :=
  match pow.digest with
  | none => .ok false
  | some digest =>
    match powTarget pow with
    | .error e => .error e
    | .ok targetD =>
      if lexLt digest targetD then
        match pow.nonce with
        | none => .ok false
        | some nonce =>
          match balloonHash H pow.salt pow.params (pow.salt ++ be64 nonce) with
          | .error e => .error e
          | .ok recomputed =>
            if digest ≠ recomputed then .error .InvalidDigest else .ok true
      else .error .InvalidDigest

/-- `impl Validate for PoW` (`pow.rs`): `verify()?`, then `NotFound` if it
returned `false`. -/
def powValidate (H : Bytes → Bytes) (pow : PoW) : Except ErrorKind Unit :=
  match powVerify H pow with
  | .error e => .error e
  | .ok false => .error .NotFound
  | .ok true => .ok ()

/-! ## Serialization of `BalloonParams`

`BinarySerialize for BalloonParams` (`balloon.rs`) delegates to
`rmp_serde`.  The definitions below model the MessagePack wire format that
`rmp_serde` produces for a struct of three `u32` fields: a fixarray of
length 3 (marker `0x93`) holding each field in the most compact unsigned
MessagePack representation (positive fixint / `0xcc` / `0xcd` / `0xce`).
`HexSerialize` is `hex::encode` / `hex::decode` over those bytes. -/

/-- Compact MessagePack encoding of an unsigned integer (< 2^32): positive
fixint below 128, else `uint8` / `uint16` / `uint32` with big-endian payload. -/
def mpEncodeUInt (n : Nat) : Bytes :=
  if n ≤ 127 then [n]
  else if n ≤ 255 then [204, n]
  else if n ≤ 65535 then [205, n / 256, n % 256]
  else [206] ++ be32 n

/-- MessagePack decoding of one unsigned integer, returning the value and the
remaining bytes; `none` on any other format. -/
def mpDecodeUInt : Bytes → Option (Nat × Bytes)
  | x :: rest =>
    if x ≤ 127 then some (x, rest)
    else if x = 204 then
      match rest with
      | a :: rest' => some (a, rest')
      | [] => none
    else if x = 205 then
      match rest with
      | a :: b :: rest' => some (a * 256 + b, rest')
      | _ => none
    else if x = 206 then
      match rest with
      | a :: b :: c :: d :: rest' => some (((a * 256 + b) * 256 + c) * 256 + d, rest')
      | _ => none
    else none
  | [] => none

/-- `BalloonParams::to_bytes` (`balloon.rs`): `rmp_serde::encode::to_vec`,
i.e. the MessagePack fixarray `[s_cost, t_cost, delta]` (encoding a
`Serialize`-derived struct; this never fails for this type). -/
def paramsToBytes (p : BalloonParams) : Except ErrorKind Bytes :=
  .ok ([147] ++ mpEncodeUInt p.s_cost ++ mpEncodeUInt p.t_cost ++ mpEncodeUInt p.delta)

/-- `BalloonParams::from_bytes` (`balloon.rs`): `rmp_serde::decode::from_slice`,
expecting the 3-element array of unsigned integers; any malformed input is
mapped to `DeserializationFailure`. -/
def paramsFromBytes (b : Bytes) : Except ErrorKind BalloonParams :=
  match b with
  | 147 :: rest =>
    match mpDecodeUInt rest with
    | none => .error .DeserializationFailure
    | some (s, rest1) =>
      match mpDecodeUInt rest1 with
      | none => .error .DeserializationFailure
      | some (t, rest2) =>
        match mpDecodeUInt rest2 with
        | none => .error .DeserializationFailure
        | some (d, _) => .ok ⟨s, t, d⟩
  | _ => .error .DeserializationFailure

/-- The sixteen lowercase hex digits, as `hex::encode` uses them. -/
def hexDigit (n : Nat) : Char :=
  if n = 0 then '0' else if n = 1 then '1' else if n = 2 then '2'
  else if n = 3 then '3' else if n = 4 then '4' else if n = 5 then '5'
  else if n = 6 then '6' else if n = 7 then '7' else if n = 8 then '8'
  else if n = 9 then '9' else if n = 10 then 'a' else if n = 11 then 'b'
  else if n = 12 then 'c' else if n = 13 then 'd' else if n = 14 then 'e'
  else 'f'

/-- `hex::encode`: two lowercase hex digits per byte. -/
def hexEncode (b : Bytes) : List Char :=
  b.flatMap (fun x => [hexDigit (x / 16), hexDigit (x % 16)])

/-- Value of one hex character (upper- or lowercase, as `hex::decode` accepts). -/
def hexVal (c : Char) : Option Nat :=
  if '0' ≤ c ∧ c ≤ '9' then some (c.toNat - '0'.toNat)
  else if 'a' ≤ c ∧ c ≤ 'f' then some (c.toNat - 'a'.toNat + 10)
  else if 'A' ≤ c ∧ c ≤ 'F' then some (c.toNat - 'A'.toNat + 10)
  else none

/-- `hex::decode`: pairs of hex digits; odd length or an invalid character is
an error (mapped to `DeserializationFailure` by `From<FromHexError>`). -/
def hexDecode : List Char → Except ErrorKind Bytes
  | [] => .ok []
  | [_] => .error .DeserializationFailure
  | c1 :: c2 :: rest =>
    match hexVal c1, hexVal c2 with
    | some h, some l =>
      match hexDecode rest with
      | .ok tail => .ok ((h * 16 + l) :: tail)
      | .error e => .error e
    | _, _ => .error .DeserializationFailure

/-- `BalloonParams::to_hex` (`balloon.rs`): `hex::encode(to_bytes()?)`. -/
def paramsToHex (p : BalloonParams) : Except ErrorKind (List Char) :=
  match paramsToBytes p with
  | .error e => .error e
  | .ok b => .ok (hexEncode b)

/-- `BalloonParams::from_hex` (`balloon.rs`): `from_bytes(hex::decode(s)?)`. -/
def paramsFromHex (s : List Char) : Except ErrorKind BalloonParams :=
  match hexDecode s with
  | .error e => .error e
  | .ok b => paramsFromBytes b

/-! ## Helper lemmas -/

theorem validateParams_ok (p : BalloonParams) (hs : 1 ≤ p.s_cost) (ht : 1 ≤ p.t_cost)
    (hd : 3 ≤ p.delta) : validateParams p = .ok () := by
  unfold validateParams
  rw [if_neg (by omega), if_neg (by omega), if_neg (by omega)]

theorem foldl_modadd_eq (l : List Nat) : ∀ a : Nat, (∀ x ∈ l, x < 256) →
    a + 255 * l.length < 2 ^ 32 →
    l.foldl (fun acc x => (acc + x) % 2 ^ 32) a = l.foldl (· + ·) a := by
  induction l with
  | nil => intro a _ _; rfl
  | cons x xs ih =>
    intro a h hb
    simp only [List.foldl_cons, List.length_cons] at *
    have hx : x < 256 := h x (by simp)
    have hax : (a + x) % 2 ^ 32 = a + x := Nat.mod_eq_of_lt (by omega)
    rw [hax]
    exact ih (a + x) (fun y hy => h y (by simp [hy])) (by omega)

theorem deltaStep_eq_spec (H : Bytes → Bytes) (salt : Bytes) (p : BalloonParams)
    (hlen : ∀ b, (H b).length = 64) (hbyte : ∀ b, ∀ x ∈ H b, x < 256) :
    deltaStep H salt p = specDeltaStep H salt p := by
  funext t m st i
  simp only [deltaStep, specDeltaStep]
  rw [List.take_of_length_le (le_of_eq (hlen _)),
    foldl_modadd_eq _ 0 (hbyte _) (by rw [hlen]; norm_num)]

theorem mixStep_eq_spec (H : Bytes → Bytes) (salt : Bytes) (p : BalloonParams)
    (hlen : ∀ b, (H b).length = 64) (hbyte : ∀ b, ∀ x ∈ H b, x < 256) :
    mixStep H salt p = specMixStep H salt p := by
  funext t st m
  simp only [mixStep, specMixStep, deltaStep_eq_spec H salt p hlen hbyte]

theorem fillStep_eq_spec : @fillStep = @specFillStep := rfl

theorem balloonCompute_eq_spec (H : Bytes → Bytes) (salt : Bytes) (p : BalloonParams)
    (msg : Bytes) (hlen : ∀ b, (H b).length = 64) (hbyte : ∀ b, ∀ x ∈ H b, x < 256) :
    balloonCompute H salt p msg = specBalloon H salt p msg := by
  simp only [balloonCompute, specBalloon, mixPhase, specMix, fillPhase, specFill,
    fillStep_eq_spec, mixStep_eq_spec H salt p hlen hbyte]

/-! ## Claims C1 and C2 -/

/-- C1: for every salt, valid params (`s_cost ≥ 1`, `t_cost ≥ 1`, `delta ≥ 3`)
and message, `BalloonHasher::hash` returns exactly the digest computed by the
Section 4.3 algorithm (counter-prefixed fill and mix phases as the spec words
them, with `other` the plain sum of the 64 bytes of `other_digest` mod
`s_cost`, and the result `buf[s_cost-1]`), for any hash primitive producing
64-byte digests. -/
theorem C1_hash_matches_section43 (H : Bytes → Bytes) (salt : Bytes) (p : BalloonParams)
    (msg : Bytes) (hlen : ∀ b, (H b).length = 64) (hbyte : ∀ b, ∀ x ∈ H b, x < 256)
    (hs : 1 ≤ p.s_cost) (ht : 1 ≤ p.t_cost) (hd : 3 ≤ p.delta) :
    balloonHash H salt p msg = .ok (specBalloon H salt p msg) := by
  unfold balloonHash
  rw [validateParams_ok p hs ht hd, balloonCompute_eq_spec H salt p msg hlen hbyte]

theorem C1_hash_matches_section43_witness :
    balloonHash (fun _ => List.replicate 64 0) [1] defaultParams [2] =
      .ok (specBalloon (fun _ => List.replicate 64 0) [1] defaultParams [2]) :=
  C1_hash_matches_section43 (fun _ => List.replicate 64 0) [1] defaultParams [2]
    (fun _ => by simp)
    (fun _ x hx => by rw [List.eq_of_mem_replicate hx]; norm_num)
    (by decide) (by decide) (by decide)

/-- C2: with `s_cost = 1` the hash is the single primitive hash
`H(be32(0) ‖ msg ‖ salt)`; with `t_cost = 1` the mix phase does not execute,
so the result is purely the fill-phase output `buf[s_cost-1]`. -/
theorem C2_hash_edge_cases (H : Bytes → Bytes) (salt : Bytes) (p : BalloonParams)
    (msg : Bytes) (hs : 1 ≤ p.s_cost) (ht : 1 ≤ p.t_cost) (hd : 3 ≤ p.delta) :
    (p.s_cost = 1 → balloonHash H salt p msg = .ok (H (be32 0 ++ msg ++ salt)))
    ∧ (p.t_cost = 1 →
        balloonHash H salt p msg = .ok ((fillPhase H salt p msg).2.getD (p.s_cost - 1) [])) := by
  constructor
  · intro h1
    unfold balloonHash
    rw [validateParams_ok p hs ht hd]
    unfold balloonCompute mixPhase fillPhase
    rw [h1]
    simp [List.foldl_fixed]
  · intro h1
    unfold balloonHash
    rw [validateParams_ok p hs ht hd]
    unfold balloonCompute mixPhase
    rw [h1]
    simp

theorem C2_hash_edge_cases_witness :
    (balloonHash (fun b => b) [1] defaultParams [2] = .ok ((fun b => b) (be32 0 ++ [2] ++ [1])))
    ∧ (balloonHash (fun b => b) [1] defaultParams [2] =
        .ok ((fillPhase (fun b => b) [1] defaultParams [2]).2.getD (defaultParams.s_cost - 1) [])) :=
  ⟨(C2_hash_edge_cases (fun b => b) [1] defaultParams [2] (by decide) (by decide) (by decide)).1 rfl,
   (C2_hash_edge_cases (fun b => b) [1] defaultParams [2] (by decide) (by decide) (by decide)).2 rfl⟩

/-! ## Claim C8: `PoWTarget::new` / `bits` -/

set_option maxRecDepth 40000 in
/-- C8: for every `bits` in `[0,63]`, `PoWTarget::new(bits)` succeeds with the
64-byte threshold `be64(u64::MAX >> bits) ‖ 0xFF^56` and `bits()` round-trips
exactly; for every `bits > 63`, `new` fails `OutOfBound`. -/
theorem C8_target_roundtrip :
    (∀ bits : Nat, bits ≤ 63 →
      powTargetNew bits = .ok (targetBytes bits) ∧ powTargetBits (targetBytes bits) = bits)
    ∧ (∀ bits : Nat, 63 < bits → powTargetNew bits = .error .OutOfBound) := by
  constructor
  · decide
  · intro bits h
    unfold powTargetNew
    rw [if_pos h]

theorem C8_target_roundtrip_witness :
    (powTargetNew 3 = .ok (targetBytes 3) ∧ powTargetBits (targetBytes 3) = 3)
    ∧ powTargetNew 64 = .error .OutOfBound :=
  ⟨C8_target_roundtrip.1 3 (by decide), C8_target_roundtrip.2 64 (by decide)⟩

/-! ## Claim C5: `BalloonParams::memory`

`memory()` is intended to compute `64·(s + (t−1)·(1+2·(d−1)))` exactly over
unbounded integers, but `impl From<u32> for Memory` (`memory.rs` line 92) is
`Integer::from_f32(n as f32).unwrap()`: the coefficient is routed through an
`f32`, which has a 24-bit significand, so any `u32` above `2^24` that is not
representable is rounded.  At `s_cost = 2^24 + 1 = 16777217` the conversion
rounds to `2^24` and `memory()` returns `64·2^24 = 1073741824` instead of
`64·(2^24+1) = 1073741888`. -/

/-- C5 (code bug): at `{s_cost = 16777217, t_cost = 1, delta = 3}` the code
returns `64·16777216`, not the exact value `64·(16777217 + (1−1)·(1+2·(3−1)))`
the claim demands. -/
theorem C5_memory_not_exact :
    balloonMemory ⟨16777217, 1, 3⟩ = .ok 1073741824
    ∧ (1073741824 : Int) ≠ 64 * (16777217 + (1 - 1) * (1 + 2 * (3 - 1))) := by
  constructor
  · decide
  · decide

/-! ## Claim C6: `from_memory` below the default memory -/

/-- C6 counterexample: the default params' memory is 64, the target 63 is
(strictly) below it, yet `from_memory(63)` fails with `InvalidArgument`
instead of succeeding with the default params as the claim states. -/
theorem C6_below_default_counterexample :
    balloonMemory defaultParams = .ok 64 ∧ (63 : Int) < 64
    ∧ fromMemory 63 = .error .InvalidArgument
    ∧ fromMemory 63 ≠ .ok defaultParams := by
  refine ⟨by decide, by decide, by decide, by decide⟩

/-- C6 amended: a target strictly below the default params' memory fails with
`InvalidArgument`; only the equality case succeeds, returning the default
params unchanged. -/
theorem C6_below_default_amended (target : Int) :
    (target < 64 → fromMemory target = .error .InvalidArgument)
    ∧ fromMemory 64 = .ok defaultParams
    ∧ balloonMemory defaultParams = .ok 64 := by
  have hdm : balloonMemory defaultParams = .ok 64 := by decide
  refine ⟨fun h => ?_, by decide, hdm⟩
  unfold fromMemory
  rw [hdm]
  simp only [if_pos h]

theorem C6_below_default_amended_witness :
    fromMemory 0 = .error .InvalidArgument ∧ fromMemory 64 = .ok defaultParams :=
  ⟨(C6_below_default_amended 0).1 (by decide), (C6_below_default_amended 0).2.1⟩

/-! ## Claim C9: serialization of `BalloonParams` -/

theorem mpDecode_encode (n : Nat) (hn : n < 2 ^ 32) (rest : Bytes) :
    mpDecodeUInt (mpEncodeUInt n ++ rest) = some (n, rest) := by
  unfold mpEncodeUInt
  by_cases h1 : n ≤ 127
  · simp [h1, mpDecodeUInt]
  · by_cases h2 : n ≤ 255
    · simp [h1, h2, mpDecodeUInt]
    · by_cases h3 : n ≤ 65535
      · simp only [if_neg h1, if_neg h2, if_pos h3, List.cons_append, List.nil_append,
          mpDecodeUInt]
        rw [if_neg (by omega), if_neg (by omega)]
        simp only [if_true, Option.some.injEq, Prod.mk.injEq, and_true]
        omega
      · simp only [if_neg h1, if_neg h2, if_neg h3, be32, List.cons_append, List.nil_append,
          mpDecodeUInt]
        rw [if_neg (by omega), if_neg (by omega), if_neg (by omega)]
        simp only [if_true, Option.some.injEq, Prod.mk.injEq, and_true]
        omega

theorem mpEncode_bytes_lt (n : Nat) (hn : n < 2 ^ 32) : ∀ x ∈ mpEncodeUInt n, x < 256 := by
  unfold mpEncodeUInt
  intro x hx
  by_cases h1 : n ≤ 127
  · simp [h1] at hx; omega
  · by_cases h2 : n ≤ 255
    · simp [h1, h2] at hx; rcases hx with h | h <;> omega
    · by_cases h3 : n ≤ 65535
      · simp [h1, h2, h3] at hx
        rcases hx with h | h | h <;> omega
      · simp [h1, h2, h3, be32] at hx
        rcases hx with h | h | h | h | h <;> omega

theorem hexVal_hexDigit : ∀ d, d < 16 → hexVal (hexDigit d) = some d := by decide

theorem hexDecode_encode (b : Bytes) (hb : ∀ x ∈ b, x < 256) :
    hexDecode (hexEncode b) = .ok b := by
  induction b with
  | nil => rfl
  | cons x xs ih =>
    have hx : x < 256 := hb x (by simp)
    have h1 : hexVal (hexDigit (x / 16)) = some (x / 16) := hexVal_hexDigit _ (by omega)
    have h2 : hexVal (hexDigit (x % 16)) = some (x % 16) := hexVal_hexDigit _ (by omega)
    have hxs : hexDecode (hexEncode xs) = .ok xs := ih (fun y hy => hb y (by simp [hy]))
    simp only [hexEncode] at hxs ⊢
    simp only [List.flatMap_cons, List.cons_append, List.nil_append]
    simp only [hexDecode, h1, h2]
    rw [hxs]
    simp only [Except.ok.injEq, List.cons.injEq, and_true]
    omega

/-- C9 counterexample: the binary serialization of the default params is the
4-byte MessagePack array `[0x93, 1, 1, 3]`, not the 12-byte layout of three
big-endian `u32` fields. -/
theorem C9_layout_counterexample :
    paramsToBytes defaultParams = .ok [147, 1, 1, 3]
    ∧ [147, 1, 1, 3] ≠ be32 1 ++ be32 1 ++ be32 3 := by
  refine ⟨by decide, by decide⟩

/-- C9 amended: serializing valid params to bytes produces the MessagePack
fixarray `[s_cost, t_cost, delta]` (each field in compact unsigned form), the
hex form is the lowercase hex string of those bytes, and both the binary and
the hex serialization round-trip exactly. -/
theorem C9_serialization_roundtrip (p : BalloonParams)
    (hs : 1 ≤ p.s_cost) (ht : 1 ≤ p.t_cost) (hd : 3 ≤ p.delta)
    (hs' : p.s_cost < 2 ^ 32) (ht' : p.t_cost < 2 ^ 32) (hd' : p.delta < 2 ^ 32) :
    ∃ b, paramsToBytes p = .ok b
      ∧ b = [147] ++ mpEncodeUInt p.s_cost ++ mpEncodeUInt p.t_cost ++ mpEncodeUInt p.delta
      ∧ paramsFromBytes b = .ok p
      ∧ paramsToHex p = .ok (hexEncode b)
      ∧ paramsFromHex (hexEncode b) = .ok p := by
  refine ⟨_, rfl, rfl, ?_, rfl, ?_⟩
  · show paramsFromBytes
      ([147] ++ mpEncodeUInt p.s_cost ++ mpEncodeUInt p.t_cost ++ mpEncodeUInt p.delta) = .ok p
    have hds : mpDecodeUInt (mpEncodeUInt p.s_cost ++ (mpEncodeUInt p.t_cost ++
        mpEncodeUInt p.delta)) = some (p.s_cost, mpEncodeUInt p.t_cost ++ mpEncodeUInt p.delta) :=
      mpDecode_encode _ hs' _
    have hdt : mpDecodeUInt (mpEncodeUInt p.t_cost ++ mpEncodeUInt p.delta) =
        some (p.t_cost, mpEncodeUInt p.delta) := mpDecode_encode _ ht' _
    have hdd : mpDecodeUInt (mpEncodeUInt p.delta ++ []) = some (p.delta, []) :=
      mpDecode_encode _ hd' _
    rw [List.append_nil] at hdd
    simp only [List.cons_append, List.nil_append, List.append_assoc, paramsFromBytes,
      hds, hdt, hdd]
  · show paramsFromHex (hexEncode ([147] ++ mpEncodeUInt p.s_cost ++ mpEncodeUInt p.t_cost ++
      mpEncodeUInt p.delta)) = .ok p
    have hbytes : ∀ x ∈ [147] ++ mpEncodeUInt p.s_cost ++ mpEncodeUInt p.t_cost ++
        mpEncodeUInt p.delta, x < 256 := by
      intro x hx
      simp only [List.append_assoc, List.cons_append, List.nil_append, List.mem_cons,
        List.mem_append] at hx
      rcases hx with h | h | h | h
      · omega
      · exact mpEncode_bytes_lt _ hs' x h
      · exact mpEncode_bytes_lt _ ht' x h
      · exact mpEncode_bytes_lt _ hd' x h
    unfold paramsFromHex
    rw [hexDecode_encode _ hbytes]
    have hds : mpDecodeUInt (mpEncodeUInt p.s_cost ++ (mpEncodeUInt p.t_cost ++
        mpEncodeUInt p.delta)) = some (p.s_cost, mpEncodeUInt p.t_cost ++ mpEncodeUInt p.delta) :=
      mpDecode_encode _ hs' _
    have hdt : mpDecodeUInt (mpEncodeUInt p.t_cost ++ mpEncodeUInt p.delta) =
        some (p.t_cost, mpEncodeUInt p.delta) := mpDecode_encode _ ht' _
    have hdd : mpDecodeUInt (mpEncodeUInt p.delta ++ []) = some (p.delta, []) :=
      mpDecode_encode _ hd' _
    rw [List.append_nil] at hdd
    simp only [List.cons_append, List.nil_append, List.append_assoc, paramsFromBytes,
      hds, hdt, hdd]

theorem C9_serialization_roundtrip_witness :
    ∃ b, paramsToBytes defaultParams = .ok b
      ∧ b = [147] ++ mpEncodeUInt defaultParams.s_cost ++ mpEncodeUInt defaultParams.t_cost ++
          mpEncodeUInt defaultParams.delta
      ∧ paramsFromBytes b = .ok defaultParams
      ∧ paramsToHex defaultParams = .ok (hexEncode b)
      ∧ paramsFromHex (hexEncode b) = .ok defaultParams :=
  C9_serialization_roundtrip defaultParams (by decide) (by decide) (by decide)
    (by decide) (by decide) (by decide)

/-! ## Lexicographic comparison versus big-endian numeric value

`pow.rs` compares digests with the derived (lexicographic) order; for
equal-length byte strings this coincides with comparing their big-endian
numeric values. -/

theorem beNat_foldl (xs : List Nat) : ∀ a : Nat,
    xs.foldl (fun acc x => acc * 256 + x) a = a * 256 ^ xs.length + beNat xs := by
  induction xs with
  | nil => intro a; simp [beNat]
  | cons x xs ih =>
    intro a
    simp only [List.foldl_cons, List.length_cons]
    rw [ih (a * 256 + x), show beNat (x :: xs) = (x :: xs).foldl (fun acc x => acc * 256 + x) 0
      from rfl]
    simp only [List.foldl_cons]
    rw [ih (0 * 256 + x), pow_succ]
    ring

theorem beNat_cons (x : Nat) (xs : List Nat) :
    beNat (x :: xs) = x * 256 ^ xs.length + beNat xs := by
  show (x :: xs).foldl (fun acc x => acc * 256 + x) 0 = _
  simp only [List.foldl_cons]
  rw [beNat_foldl]
  ring_nf

theorem beNat_lt_pow (xs : List Nat) (h : ∀ x ∈ xs, x < 256) :
    beNat xs < 256 ^ xs.length := by
  induction xs with
  | nil => simp [beNat]
  | cons x xs ih =>
    have hx : x < 256 := h x (by simp)
    have hxs := ih (fun y hy => h y (by simp [hy]))
    rw [beNat_cons, List.length_cons, pow_succ]
    calc x * 256 ^ xs.length + beNat xs < x * 256 ^ xs.length + 256 ^ xs.length := by omega
    _ = (x + 1) * 256 ^ xs.length := by ring
    _ ≤ 256 * 256 ^ xs.length := by
        exact Nat.mul_le_mul_right _ (by omega)
    _ = 256 ^ xs.length * 256 := by ring

theorem lexLt_iff_beNat (a : Bytes) : ∀ b : Bytes, a.length = b.length →
    (∀ x ∈ a, x < 256) → (∀ x ∈ b, x < 256) →
    (lexLt a b = true ↔ beNat a < beNat b) := by
  induction a with
  | nil =>
    intro b hlen _ _
    have : b = [] := List.eq_nil_of_length_eq_zero hlen.symm
    subst this
    simp [lexLt]
  | cons x xs ih =>
    intro b hlen ha hb
    cases b with
    | nil => simp at hlen
    | cons y ys =>
      have hl : xs.length = ys.length := by simpa using hlen
      have hx : x < 256 := ha x (by simp)
      have hy : y < 256 := hb y (by simp)
      have hxs : beNat xs < 256 ^ xs.length := beNat_lt_pow xs (fun z hz => ha z (by simp [hz]))
      have hys : beNat ys < 256 ^ ys.length := beNat_lt_pow ys (fun z hz => hb z (by simp [hz]))
      simp only [lexLt, beNat_cons, hl]
      by_cases hxy : x < y
      · simp only [if_pos hxy, true_iff]
        calc x * 256 ^ ys.length + beNat xs < x * 256 ^ ys.length + 256 ^ ys.length := by
              rw [hl] at hxs; omega
        _ = (x + 1) * 256 ^ ys.length := by ring
        _ ≤ y * 256 ^ ys.length := Nat.mul_le_mul_right _ (by omega)
        _ ≤ y * 256 ^ ys.length + beNat ys := by omega
      · by_cases hyx : y < x
        · simp only [if_neg hxy, if_pos hyx, Bool.false_eq_true, false_iff, not_lt]
          refine le_of_lt ?_
          calc y * 256 ^ ys.length + beNat ys < y * 256 ^ ys.length + 256 ^ ys.length := by omega
          _ = (y + 1) * 256 ^ ys.length := by ring
          _ ≤ x * 256 ^ ys.length := Nat.mul_le_mul_right _ (by omega)
          _ ≤ x * 256 ^ ys.length + beNat xs := by omega
        · have hxyeq : x = y := by omega
          subst hxyeq
          simp only [if_neg hxy, if_neg hyx]
          rw [ih ys hl (fun z hz => ha z (by simp [hz])) (fun z hz => hb z (by simp [hz]))]
          omega

/-! ## Well-formedness of computed digests -/

theorem foldl_preserve {α β : Type} (P : α → Prop) (f : α → β → α) (l : List β)
    (hf : ∀ a b, P a → P (f a b)) : ∀ a, P a → P (l.foldl f a) := by
  induction l with
  | nil => intro a h; exact h
  | cons x xs ih => intro a h; exact ih (f a x) (hf a x h)

/-- Invariant carried through the balloon computation: the buffer keeps its
`s_cost` length and every slot is a well-formed 64-byte digest. -/
def bufWF (p : BalloonParams) (st : Nat × List Bytes) : Prop :=
  st.2.length = p.s_cost ∧ ∀ d ∈ st.2, d.length = 64 ∧ ∀ x ∈ d, x < 256

theorem bufWF_set (p : BalloonParams) (cnt cnt' : Nat) (buf : List Bytes) (m : Nat) (v : Bytes)
    (h : bufWF p (cnt, buf)) (hv : v.length = 64 ∧ ∀ x ∈ v, x < 256) :
    bufWF p (cnt', buf.set m v) := by
  obtain ⟨hlen, hmem⟩ := h
  refine ⟨by simpa using hlen, fun d hd => ?_⟩
  rcases List.mem_or_eq_of_mem_set hd with h' | h'
  · exact hmem d h'
  · rw [h']; exact hv

theorem bufWF_fillPhase (H : Bytes → Bytes) (salt : Bytes) (p : BalloonParams) (msg : Bytes)
    (hlen : ∀ b, (H b).length = 64) (hbyte : ∀ b, ∀ x ∈ H b, x < 256) :
    bufWF p (fillPhase H salt p msg) := by
  unfold fillPhase
  apply foldl_preserve (bufWF p) (fillStep H)
  · intro a b h
    exact bufWF_set p a.1 (a.1 + 1) a.2 b _ (by exact ⟨h.1, h.2⟩) ⟨hlen _, hbyte _⟩
  · apply bufWF_set p 0 1
    · refine ⟨by simp, fun d hd => ?_⟩
      rw [List.eq_of_mem_replicate hd]
      refine ⟨by simp [defaultDigest], fun x hx => ?_⟩
      rw [List.eq_of_mem_replicate hx]
      omega
    · exact ⟨hlen _, hbyte _⟩

theorem bufWF_mixPhase (H : Bytes → Bytes) (salt : Bytes) (p : BalloonParams)
    (st : Nat × List Bytes) (hst : bufWF p st)
    (hlen : ∀ b, (H b).length = 64) (hbyte : ∀ b, ∀ x ∈ H b, x < 256) :
    bufWF p (mixPhase H salt p st) := by
  unfold mixPhase
  apply foldl_preserve (bufWF p) _ _ ?_ st hst
  intro a t ha
  apply foldl_preserve (bufWF p) (mixStep H salt p t)
  · intro a' m ha'
    unfold mixStep
    apply foldl_preserve (bufWF p) (deltaStep H salt p t m)
    · intro a'' i ha''
      unfold deltaStep
      exact bufWF_set p a''.1 _ a''.2 m _ ha'' ⟨hlen _, hbyte _⟩
    · exact bufWF_set p a'.1 _ a'.2 m _ ha' ⟨hlen _, hbyte _⟩
  · exact ha

theorem balloonCompute_wf (H : Bytes → Bytes) (salt : Bytes) (p : BalloonParams) (msg : Bytes)
    (hlen : ∀ b, (H b).length = 64) (hbyte : ∀ b, ∀ x ∈ H b, x < 256) (hs : 1 ≤ p.s_cost) :
    (balloonCompute H salt p msg).length = 64 ∧ ∀ x ∈ balloonCompute H salt p msg, x < 256 := by
  unfold balloonCompute
  have h := bufWF_mixPhase H salt p _ (bufWF_fillPhase H salt p msg hlen hbyte) hlen hbyte
  obtain ⟨h1, h2⟩ := h
  have hidx : p.s_cost - 1 < (mixPhase H salt p (fillPhase H salt p msg)).2.length := by omega
  rw [List.getD_eq_getElem _ _ hidx]
  exact h2 _ (List.getElem_mem hidx)

/-- The target threshold is a well-formed 64-byte digest. -/
theorem targetBytes_wf (bits : Nat) :
    (targetBytes bits).length = 64 ∧ ∀ x ∈ targetBytes bits, x < 256 := by
  constructor
  · simp [targetBytes, be64]
  · intro x hx
    simp only [targetBytes, be64, List.mem_append, List.mem_cons, List.not_mem_nil,
      or_false, List.mem_replicate] at hx
    omega

/-- `PoW::target` under an in-range difficulty. -/
theorem powTarget_ok (pow : PoW) (h3 : 3 ≤ pow.difficulty) (h63 : pow.difficulty ≤ 63) :
    powTarget pow = .ok (targetBytes pow.difficulty) := by
  unfold powTarget powTargetNew digestFromBytes
  rw [if_neg (by omega), if_neg (by omega), if_neg (by simp [(targetBytes_wf pow.difficulty).1])]

/-! ## Claims C4 and C10: `PoW::verify` / `validate` -/

theorem balloonHash_ok (H : Bytes → Bytes) (salt : Bytes) (p : BalloonParams) (msg : Bytes)
    (hs : 1 ≤ p.s_cost) (ht : 1 ≤ p.t_cost) (hd : 3 ≤ p.delta) :
    balloonHash H salt p msg = .ok (balloonCompute H salt p msg) := by
  unfold balloonHash
  rw [validateParams_ok p hs ht hd]

/-- Under valid params and an in-range difficulty, `verify` can only produce
`Ok(false)`, `Ok(true)` or `Err(InvalidDigest)`. -/
theorem powVerify_cases (H : Bytes → Bytes) (pow : PoW)
    (hs : 1 ≤ pow.params.s_cost) (ht : 1 ≤ pow.params.t_cost) (hd : 3 ≤ pow.params.delta)
    (h3 : 3 ≤ pow.difficulty) (h63 : pow.difficulty ≤ 63) :
    powVerify H pow = .ok false ∨ powVerify H pow = .ok true
    ∨ powVerify H pow = .error .InvalidDigest := by
  cases hdg : pow.digest with
  | none => left; simp [powVerify, hdg]
  | some d =>
    cases hlex : lexLt d (targetBytes pow.difficulty) with
    | false =>
      right; right
      simp [powVerify, hdg, powTarget_ok pow h3 h63, hlex]
    | true =>
      cases hn : pow.nonce with
      | none => left; simp [powVerify, hdg, powTarget_ok pow h3 h63, hlex, hn]
      | some n =>
        by_cases hne : d = balloonCompute H pow.salt pow.params (pow.salt ++ be64 n)
        · right; left
          simp [powVerify, hdg, powTarget_ok pow h3 h63, hlex, hn,
            balloonHash_ok H pow.salt pow.params _ hs ht hd, ← hne]
        · right; right
          simp [powVerify, hdg, powTarget_ok pow h3 h63, hlex, hn,
            balloonHash_ok H pow.salt pow.params _ hs ht hd, hne]

/-- C4: with valid params and in-range difficulty: an unmined digest gives
`Ok(false)`; with both nonce and digest stored, `verify` fails `InvalidDigest`
when the stored digest is not numerically below the target, fails
`InvalidDigest` when the recomputed hash differs from the stored digest, and
returns `Ok(true)` otherwise; `validate` fails `NotFound` exactly when
`verify` returns `Ok(false)` and succeeds exactly when it returns `Ok(true)`. -/
theorem C4_verify_validate (H : Bytes → Bytes) (pow : PoW)
    (hs : 1 ≤ pow.params.s_cost) (ht : 1 ≤ pow.params.t_cost) (hd : 3 ≤ pow.params.delta)
    (h3 : 3 ≤ pow.difficulty) (h63 : pow.difficulty ≤ 63)
    (hwf : ∀ d, pow.digest = some d → d.length = 64 ∧ ∀ x ∈ d, x < 256) :
    (pow.digest = none → powVerify H pow = .ok false)
    ∧ (∀ n d, pow.nonce = some n → pow.digest = some d →
        (¬ beNat d < beNat (targetBytes pow.difficulty) →
          powVerify H pow = .error .InvalidDigest)
        ∧ (beNat d < beNat (targetBytes pow.difficulty) → hashAt H pow n ≠ d →
          powVerify H pow = .error .InvalidDigest)
        ∧ (beNat d < beNat (targetBytes pow.difficulty) → hashAt H pow n = d →
          powVerify H pow = .ok true))
    ∧ (powValidate H pow = .error .NotFound ↔ powVerify H pow = .ok false)
    ∧ (powValidate H pow = .ok () ↔ powVerify H pow = .ok true) := by
  have htw := targetBytes_wf pow.difficulty
  refine ⟨?_, ?_, ?_, ?_⟩
  · intro h
    simp [powVerify, h]
  · intro n d hn hdg
    have hwd := hwf d hdg
    have hbridge : lexLt d (targetBytes pow.difficulty) = true ↔
        beNat d < beNat (targetBytes pow.difficulty) :=
      lexLt_iff_beNat d _ (by rw [hwd.1, htw.1]) hwd.2 htw.2
    refine ⟨fun hnum => ?_, fun hnum hne => ?_, fun hnum heq => ?_⟩
    · have hlex : lexLt d (targetBytes pow.difficulty) = false := by
        cases hc : lexLt d (targetBytes pow.difficulty)
        · rfl
        · exact absurd (hbridge.1 hc) hnum
      simp [powVerify, hdg, powTarget_ok pow h3 h63, hlex]
    · have hne' : d ≠ balloonCompute H pow.salt pow.params (pow.salt ++ be64 n) :=
        fun hc => hne (by rw [hashAt, ← hc])
      simp [powVerify, hdg, powTarget_ok pow h3 h63, hbridge.2 hnum, hn,
        balloonHash_ok H pow.salt pow.params _ hs ht hd, hne']
    · have heq' : d = balloonCompute H pow.salt pow.params (pow.salt ++ be64 n) := by
        rw [← heq, hashAt]
      simp [powVerify, hdg, powTarget_ok pow h3 h63, hbridge.2 hnum, hn,
        balloonHash_ok H pow.salt pow.params _ hs ht hd, ← heq']
  · rcases powVerify_cases H pow hs ht hd h3 h63 with h | h | h <;>
      simp [powValidate, h]
  · rcases powVerify_cases H pow hs ht hd h3 h63 with h | h | h <;>
      simp [powValidate, h]

theorem C4_verify_validate_witness :
    powVerify (fun _ => List.replicate 64 0)
      { salt := [], params := defaultParams, difficulty := 3, nonce := none, digest := none } =
      .ok false :=
  (C4_verify_validate (fun _ => List.replicate 64 0)
    { salt := [], params := defaultParams, difficulty := 3, nonce := none, digest := none }
    (by decide) (by decide) (by decide) (by decide) (by decide)
    (fun d h => nomatch h)).1 rfl

/-- C10: a `PoW` whose fields are `nonce = None, digest = Some d` (not part of
the documented lifecycle): `verify` returns `Ok(false)` when `d` is numerically
below the target digest and fails `InvalidDigest` when it is not; and `verify`
never returns `Ok(true)` unless both `nonce` and `digest` are set. -/
theorem C10_verify_digest_without_nonce (H : Bytes → Bytes) (pow : PoW) (d : Bytes)
    (hs : 1 ≤ pow.params.s_cost) (ht : 1 ≤ pow.params.t_cost) (hdel : 3 ≤ pow.params.delta)
    (h3 : 3 ≤ pow.difficulty) (h63 : pow.difficulty ≤ 63)
    (hn : pow.nonce = none) (hdg : pow.digest = some d)
    (hwf : d.length = 64 ∧ ∀ x ∈ d, x < 256) :
    (beNat d < beNat (targetBytes pow.difficulty) → powVerify H pow = .ok false)
    ∧ (¬ beNat d < beNat (targetBytes pow.difficulty) →
        powVerify H pow = .error .InvalidDigest)
    ∧ (∀ q : PoW, powVerify H q = .ok true → q.nonce ≠ none ∧ q.digest ≠ none) := by
  have htw := targetBytes_wf pow.difficulty
  have hbridge : lexLt d (targetBytes pow.difficulty) = true ↔
      beNat d < beNat (targetBytes pow.difficulty) :=
    lexLt_iff_beNat d _ (by rw [hwf.1, htw.1]) hwf.2 htw.2
  refine ⟨fun hnum => ?_, fun hnum => ?_, fun q hq => ?_⟩
  · simp [powVerify, hdg, powTarget_ok pow h3 h63, hbridge.2 hnum, hn]
  · have hlex : lexLt d (targetBytes pow.difficulty) = false := by
      cases hc : lexLt d (targetBytes pow.difficulty)
      · rfl
      · exact absurd (hbridge.1 hc) hnum
    simp [powVerify, hdg, powTarget_ok pow h3 h63, hlex]
  · constructor
    · intro hqn
      cases hqd : q.digest with
      | none => simp [powVerify, hqd] at hq
      | some dd =>
        cases htq : powTarget q with
        | error e => simp [powVerify, hqd, htq] at hq
        | ok tq =>
          cases hlex : lexLt dd tq with
          | false => simp [powVerify, hqd, htq, hlex] at hq
          | true => simp [powVerify, hqd, htq, hlex, hqn] at hq
    · intro hqd
      simp [powVerify, hqd] at hq

theorem C10_verify_digest_without_nonce_witness :
    powVerify (fun _ => List.replicate 64 0)
      { salt := [], params := defaultParams, difficulty := 3, nonce := none,
        digest := some (List.replicate 64 0) } = .ok false :=
  (C10_verify_digest_without_nonce (fun _ => List.replicate 64 0)
    { salt := [], params := defaultParams, difficulty := 3, nonce := none,
      digest := some (List.replicate 64 0) } (List.replicate 64 0)
    (by decide) (by decide) (by decide) (by decide) (by decide) rfl rfl
    ⟨by simp, fun x hx => by rw [List.eq_of_mem_replicate hx]; omega⟩).1
    (by decide)

/-! ## Claim C3: `PoW::mine` -/

theorem mineLoop_spec (H : Bytes → Bytes) (pow : PoW) (targetD : Bytes)
    (hs : 1 ≤ pow.params.s_cost) (ht : 1 ≤ pow.params.t_cost) (hd : 3 ≤ pow.params.delta) :
    ∀ fuel nonce, fuel + nonce = 2 ^ 64 →
    (∀ k < nonce, lexLt (hashAt H pow k) targetD = false) →
    (∃ n, nonce ≤ n ∧ n < 2 ^ 64 ∧
        mineLoop H pow targetD fuel nonce =
          .ok { pow with nonce := some n, digest := some (hashAt H pow n) } ∧
        lexLt (hashAt H pow n) targetD = true ∧
        ∀ k < n, lexLt (hashAt H pow k) targetD = false)
    ∨ (mineLoop H pow targetD fuel nonce = .ok pow ∧
        ∀ k < 2 ^ 64, lexLt (hashAt H pow k) targetD = false) := by
  intro fuel
  induction fuel with
  | zero =>
    intro nonce hfn hpre
    right
    exact ⟨rfl, fun k hk => hpre k (by omega)⟩
  | succ fuel ih =>
    intro nonce hfn hpre
    cases hlex : lexLt (hashAt H pow nonce) targetD with
    | true =>
      left
      refine ⟨nonce, le_refl nonce, by omega, ?_, hlex, hpre⟩
      simp only [mineLoop, balloonHash_ok H pow.salt pow.params _ hs ht hd]
      rw [show balloonCompute H pow.salt pow.params (pow.salt ++ be64 nonce) =
        hashAt H pow nonce from rfl, hlex]
      simp
    | false =>
      by_cases hmax : nonce = U64MAX
      · right
        constructor
        · simp only [mineLoop, balloonHash_ok H pow.salt pow.params _ hs ht hd]
          rw [show balloonCompute H pow.salt pow.params (pow.salt ++ be64 nonce) =
            hashAt H pow nonce from rfl, hlex]
          simp [hmax]
        · intro k hk
          rcases (by unfold U64MAX at hmax; omega : k < nonce ∨ k = nonce) with h | h
          · exact hpre k h
          · rw [h]; exact hlex
      · have step : mineLoop H pow targetD (fuel + 1) nonce =
            mineLoop H pow targetD fuel (nonce + 1) := by
          simp only [mineLoop, balloonHash_ok H pow.salt pow.params _ hs ht hd]
          rw [show balloonCompute H pow.salt pow.params (pow.salt ++ be64 nonce) =
            hashAt H pow nonce from rfl, hlex]
          simp [hmax]
        have hpre' : ∀ k < nonce + 1, lexLt (hashAt H pow k) targetD = false := by
          intro k hk
          rcases (by omega : k < nonce ∨ k = nonce) with h | h
          · exact hpre k h
          · rw [h]; exact hlex
        rcases ih (nonce + 1) (by omega) hpre' with
          ⟨n, hn1, hn2, heq, hfound, hleast⟩ | ⟨heq, hall⟩
        · exact Or.inl ⟨n, by omega, hn2, by rw [step]; exact heq, hfound, hleast⟩
        · exact Or.inr ⟨by rw [step]; exact heq, hall⟩

/-- C3: `mine()` searches nonces linearly from 0, hashing `salt ‖ be64(nonce)`
with a fresh hasher; the least nonce whose digest is numerically below the
target digest is accepted, storing nonce and digest together as a pair and
stopping; if the whole 64-bit nonce space fails, `mine()` still returns `Ok`
with nonce and digest left `None`. -/
theorem C3_mine_least_nonce (H : Bytes → Bytes) (pow : PoW)
    (hlen : ∀ b, (H b).length = 64) (hbyte : ∀ b, ∀ x ∈ H b, x < 256)
    (hs : 1 ≤ pow.params.s_cost) (ht : 1 ≤ pow.params.t_cost) (hd : 3 ≤ pow.params.delta)
    (h3 : 3 ≤ pow.difficulty) (h63 : pow.difficulty ≤ 63)
    (hn : pow.nonce = none) (hdg : pow.digest = none) :
    ∃ targetD, powTarget pow = .ok targetD ∧
    ((∃ n, n < 2 ^ 64 ∧
        powMine H pow = .ok { pow with nonce := some n, digest := some (hashAt H pow n) } ∧
        beNat (hashAt H pow n) < beNat targetD ∧
        ∀ k < n, ¬ beNat (hashAt H pow k) < beNat targetD)
     ∨ (powMine H pow = .ok pow ∧ pow.nonce = none ∧ pow.digest = none ∧
        ∀ k < 2 ^ 64, ¬ beNat (hashAt H pow k) < beNat targetD)) := by
  have htw := targetBytes_wf pow.difficulty
  have hbridge : ∀ k, (lexLt (hashAt H pow k) (targetBytes pow.difficulty) = true ↔
      beNat (hashAt H pow k) < beNat (targetBytes pow.difficulty)) := by
    intro k
    have hcw := balloonCompute_wf H pow.salt pow.params (pow.salt ++ be64 k) hlen hbyte hs
    have hh : hashAt H pow k = balloonCompute H pow.salt pow.params (pow.salt ++ be64 k) := rfl
    exact lexLt_iff_beNat _ _ (by rw [hh, hcw.1, htw.1]) (hh ▸ hcw.2) htw.2
  have hmine : powMine H pow = mineLoop H pow (targetBytes pow.difficulty) (2 ^ 64) 0 := by
    simp [powMine, powTarget_ok pow h3 h63]
  refine ⟨targetBytes pow.difficulty, powTarget_ok pow h3 h63, ?_⟩
  rcases mineLoop_spec H pow (targetBytes pow.difficulty) hs ht hd (2 ^ 64) 0 (by omega)
      (fun k hk => absurd hk (by omega)) with
    ⟨n, _, hn2, heq, hfound, hleast⟩ | ⟨heq, hall⟩
  · left
    refine ⟨n, hn2, by rw [hmine]; exact heq, (hbridge n).1 hfound, fun k hk hnum => ?_⟩
    have hfalse := hleast k hk
    rw [(hbridge k).2 hnum] at hfalse
    simp at hfalse
  · right
    refine ⟨by rw [hmine]; exact heq, hn, hdg, fun k hk hnum => ?_⟩
    have hfalse := hall k hk
    rw [(hbridge k).2 hnum] at hfalse
    simp at hfalse

/-- Concrete instances used by witness theorems: the constant-zero hash
primitive and an unmined `PoW` at default params and difficulty 3. -/
def witnessH : Bytes → Bytes := fun _ => List.replicate 64 0

def witnessPow : PoW :=
  { salt := [], params := defaultParams, difficulty := 3, nonce := none, digest := none }

theorem C3_mine_least_nonce_witness :
    ∃ targetD, powTarget witnessPow = .ok targetD ∧
    ((∃ n, n < 2 ^ 64 ∧
        powMine witnessH witnessPow =
          .ok { witnessPow with nonce := some n, digest := some (hashAt witnessH witnessPow n) } ∧
        beNat (hashAt witnessH witnessPow n) < beNat targetD ∧
        ∀ k < n, ¬ beNat (hashAt witnessH witnessPow k) < beNat targetD)
     ∨ (powMine witnessH witnessPow = .ok witnessPow ∧ witnessPow.nonce = none ∧
        witnessPow.digest = none ∧
        ∀ k < 2 ^ 64, ¬ beNat (hashAt witnessH witnessPow k) < beNat targetD)) :=
  C3_mine_least_nonce witnessH witnessPow
    (fun _ => by simp [witnessH])
    (fun _ x hx => by
      simp only [witnessH] at hx
      rw [List.eq_of_mem_replicate hx]
      omega)
    (by decide) (by decide) (by decide) (by decide) (by decide) rfl rfl

/-! ## Claim C7: the greedy `from_memory` search

Supporting arithmetic: bounds on `bitLen` and `toF32`, and monotonicity of the
memory formula in its (rounded) coefficients. -/

theorem bitLenAux_le : ∀ fuel n k, n < 2 ^ k → n ≤ fuel → bitLenAux fuel n ≤ k := by
  intro fuel
  induction fuel with
  | zero =>
    intro n k _ hn
    have : n = 0 := by omega
    subst this
    simp [bitLenAux]
  | succ fuel ih =>
    intro n k hk hn
    by_cases h0 : n = 0
    · simp [bitLenAux, h0]
    · simp only [bitLenAux, if_neg h0]
      cases k with
      | zero => simp at hk; omega
      | succ k' =>
        have hlt : n / 2 < 2 ^ k' := by
          rw [pow_succ] at hk
          omega
        have := ih (n / 2) k' hlt (by omega)
        omega

theorem bitLen_le (n k : Nat) (h : n < 2 ^ k) : bitLen n ≤ k :=
  bitLenAux_le n n k h (le_refl n)

theorem bitLenAux_lt : ∀ fuel n, n ≤ fuel → n < 2 ^ bitLenAux fuel n := by
  intro fuel
  induction fuel with
  | zero =>
    intro n hn
    have : n = 0 := by omega
    subst this
    simp [bitLenAux]
  | succ fuel ih =>
    intro n hn
    by_cases h0 : n = 0
    · simp [bitLenAux, h0]
    · simp only [bitLenAux, if_neg h0]
      have := ih (n / 2) (by omega)
      rw [pow_succ]
      omega

theorem bitLen_lt (n : Nat) : n < 2 ^ bitLen n := bitLenAux_lt n n (le_refl n)

theorem roundTiesEven_bounds (n u : Nat) (hu : 0 < u) :
    n / u * u ≤ roundTiesEven n u ∧ roundTiesEven n u ≤ (n / u + 1) * u := by
  simp only [roundTiesEven]
  have h1 : n / u * u ≤ (n / u + 1) * u := Nat.mul_le_mul_right u (by omega)
  split
  · exact ⟨le_refl _, h1⟩
  · split
    · exact ⟨h1, le_refl _⟩
    · split
      · exact ⟨le_refl _, h1⟩
      · exact ⟨h1, le_refl _⟩

theorem mul_succ_le_of_dvd (q u M : Nat) (hu : 0 < u) (hdvd : u ∣ M) (h : q * u < M) :
    (q + 1) * u ≤ M := by
  obtain ⟨m, rfl⟩ := hdvd
  have hq : q < m := by
    by_contra hc
    push_neg at hc
    have hle : m * u ≤ q * u := Nat.mul_le_mul_right u hc
    rw [mul_comm u m] at h
    omega
  calc (q + 1) * u ≤ m * u := Nat.mul_le_mul_right u (by omega)
  _ = u * m := mul_comm m u

theorem toF32_le_pow (n : Nat) : toF32 n ≤ 2 ^ bitLen n ∨ n ≤ 2 ^ 24 := by
  unfold toF32
  by_cases h : n ≤ 2 ^ 24
  · right; exact h
  · left
    rw [if_neg h]
    have hu : 0 < 2 ^ (bitLen n - 24) := Nat.pos_pow_of_pos _ (by omega)
    have hround := (roundTiesEven_bounds n _ hu).2
    refine le_trans hround (mul_succ_le_of_dvd _ _ _ hu ?_ ?_)
    · exact pow_dvd_pow 2 (by omega)
    · calc n / 2 ^ (bitLen n - 24) * 2 ^ (bitLen n - 24) ≤ n := Nat.div_mul_le_self n _
      _ < 2 ^ bitLen n := bitLen_lt n

theorem toF32_le_u32 (n : Nat) (h : n ≤ U32MAX) : toF32 n ≤ 2 ^ 32 := by
  have hb : bitLen n ≤ 32 := bitLen_le n 32 (by unfold U32MAX at h; omega)
  rcases toF32_le_pow n with h1 | h1
  · exact le_trans h1 (Nat.pow_le_pow_right (by omega) hb)
  · unfold toF32
    rw [if_pos h1]
    calc n ≤ 2 ^ 24 := h1
    _ ≤ 2 ^ 32 := by norm_num

theorem toF32_one_le (n : Nat) (h1 : 1 ≤ n) (h2 : n ≤ U32MAX) : 1 ≤ toF32 n := by
  unfold toF32
  by_cases h : n ≤ 2 ^ 24
  · rw [if_pos h]; exact h1
  · rw [if_neg h]
    have hb : bitLen n ≤ 32 := bitLen_le n 32 (by unfold U32MAX at h2; omega)
    have hu : 0 < 2 ^ (bitLen n - 24) := Nat.pos_pow_of_pos _ (by omega)
    have hule : 2 ^ (bitLen n - 24) ≤ 2 ^ 8 := Nat.pow_le_pow_right (by omega) (by omega)
    have hun : 2 ^ (bitLen n - 24) ≤ n := by
      calc 2 ^ (bitLen n - 24) ≤ 2 ^ 8 := hule
      _ ≤ n := by norm_num at *; omega
    have hq : 1 ≤ n / 2 ^ (bitLen n - 24) := (Nat.one_le_div_iff hu).2 hun
    have := (roundTiesEven_bounds n _ hu).1
    calc 1 ≤ 1 * 2 ^ (bitLen n - 24) := by omega
    _ ≤ n / 2 ^ (bitLen n - 24) * 2 ^ (bitLen n - 24) := Nat.mul_le_mul_right _ hq
    _ ≤ roundTiesEven n (2 ^ (bitLen n - 24)) := this

theorem memF_one_le (n : Nat) (h1 : 1 ≤ n) (h2 : n ≤ U32MAX) : 1 ≤ memF n := by
  unfold memF
  exact_mod_cast toF32_one_le n h1 h2

theorem memF_le (n : Nat) (h : n ≤ U32MAX) : memF n ≤ 2 ^ 32 := by
  unfold memF
  exact_mod_cast toF32_le_u32 n h

theorem memF_u32max : memF U32MAX = 2 ^ 32 := by decide

/-- Monotone bound: the memory formula at any in-range params is at most its
value at `(u32::MAX, u32::MAX, u32::MAX)`. -/
theorem memInt_le_max (s t d : Nat)
    (hs1 : 1 ≤ s) (ht1 : 1 ≤ t) (hd1 : 1 ≤ d)
    (hs2 : s ≤ U32MAX) (ht2 : t ≤ U32MAX) (hd2 : d ≤ U32MAX) :
    memInt s t d ≤ memInt U32MAX U32MAX U32MAX := by
  unfold memInt
  rw [memF_u32max]
  have has1 := memF_one_le s hs1 hs2
  have hat1 := memF_one_le t ht1 ht2
  have had1 := memF_one_le d hd1 hd2
  have has2 := memF_le s hs2
  have hat2 := memF_le t ht2
  have had2 := memF_le d hd2
  have hmul : (memF t - 1) * (1 + 2 * (memF d - 1)) ≤
      ((2 : Int) ^ 32 - 1) * (1 + 2 * (2 ^ 32 - 1)) := by
    apply mul_le_mul (by omega) (by omega) (by omega) (by omega)
  omega

/-- Validity plus the `u32` range constraint every reachable parameter set
satisfies. -/
def validP (p : BalloonParams) : Prop :=
  1 ≤ p.s_cost ∧ 1 ≤ p.t_cost ∧ 3 ≤ p.delta
  ∧ p.s_cost ≤ U32MAX ∧ p.t_cost ≤ U32MAX ∧ p.delta ≤ U32MAX

@[simp] theorem sCost_mk (a b c : Nat) : (BalloonParams.mk a b c).s_cost = a := rfl

@[simp] theorem tCost_mk (a b c : Nat) : (BalloonParams.mk a b c).t_cost = b := rfl

@[simp] theorem delta_mk (a b c : Nat) : (BalloonParams.mk a b c).delta = c := rfl

/-- The saturating increment `x += 1 - x / u32::MAX`: adds one below the
maximum, stays put at the maximum. -/
theorem inc_cases (x : Nat) (hx : x ≤ U32MAX) :
    (x < U32MAX ∧ x + (1 - x / U32MAX) = x + 1)
    ∨ (x = U32MAX ∧ x + (1 - x / U32MAX) = x) := by
  unfold U32MAX at *
  by_cases h : x < 4294967295
  · left
    rw [Nat.div_eq_of_lt h]
    omega
  · right
    have hx' : x = 4294967295 := by omega
    subst hx'
    rw [Nat.div_self (by norm_num)]
    omega

theorem balloonMemory_valid (p : BalloonParams) (h : validP p) :
    balloonMemory p = .ok (memInt p.s_cost p.t_cost p.delta) := by
  unfold balloonMemory
  rw [validateParams_ok p h.1 h.2.1 h.2.2.1]

theorem fromMemoryLoop_ok (target : Int) : ∀ fuel p q, validP p →
    fromMemoryLoop target fuel p = .ok q →
    validP q ∧ target ≤ memInt q.s_cost q.t_cost q.delta := by
  intro fuel
  induction fuel with
  | zero =>
    intro p q _ h
    exact absurd h (by simp [fromMemoryLoop])
  | succ fuel ih =>
    intro p q hv h
    obtain ⟨s, t, d⟩ := p
    obtain ⟨hs1, ht1, hd1, hs2, ht2, hd2⟩ := hv
    simp only [sCost_mk, tCost_mk, delta_mk] at hs1 ht1 hd1 hs2 ht2 hd2
    have hsc := inc_cases s hs2
    have htc := inc_cases t ht2
    have hdc := inc_cases d hd2
    simp only [fromMemoryLoop, sCost_mk, tCost_mk, delta_mk] at h
    set s' := s + (1 - s / U32MAX) with hsdef
    set t' := t + (1 - t / U32MAX) with htdef
    set d' := d + (1 - d / U32MAX) with hddef
    have hv1 : validP ⟨s', t, d⟩ :=
      ⟨(by omega : 1 ≤ s'), ht1, hd1, (by omega : s' ≤ U32MAX), ht2, hd2⟩
    have hv2 : validP ⟨s', t', d⟩ :=
      ⟨(by omega : 1 ≤ s'), (by omega : 1 ≤ t'), hd1,
       (by omega : s' ≤ U32MAX), (by omega : t' ≤ U32MAX), hd2⟩
    have hv3 : validP ⟨s', t', d'⟩ :=
      ⟨(by omega : 1 ≤ s'), (by omega : 1 ≤ t'), (by omega : 3 ≤ d'),
       (by omega : s' ≤ U32MAX), (by omega : t' ≤ U32MAX), (by omega : d' ≤ U32MAX)⟩
    simp only [balloonMemory_valid _ hv1, balloonMemory_valid _ hv2,
      balloonMemory_valid _ hv3, sCost_mk, tCost_mk, delta_mk] at h
    split at h
    · cases h
      exact ⟨hv1, by simpa using (by assumption : target ≤ memInt s' t d)⟩
    · split at h
      · cases h
        exact ⟨hv2, by simpa using (by assumption : target ≤ memInt s' t' d)⟩
      · split at h
        · cases h
          exact ⟨hv3, by simpa using (by assumption : target ≤ memInt s' t' d')⟩
        · split at h
          · cases h
          · exact ih _ q hv3 h

theorem fromMemoryLoop_err (target : Int) : ∀ fuel p e, validP p →
    U32MAX - min p.s_cost (min p.t_cost p.delta) < fuel →
    fromMemoryLoop target fuel p = .error e →
    e = .NotFound ∧ memInt U32MAX U32MAX U32MAX < target := by
  intro fuel
  induction fuel with
  | zero =>
    intro p e hv hfuel h
    omega
  | succ fuel ih =>
    intro p e hv hfuel h
    obtain ⟨s, t, d⟩ := p
    obtain ⟨hs1, ht1, hd1, hs2, ht2, hd2⟩ := hv
    simp only [sCost_mk, tCost_mk, delta_mk] at hs1 ht1 hd1 hs2 ht2 hd2
    simp only [sCost_mk, tCost_mk, delta_mk] at hfuel
    have hsc := inc_cases s hs2
    have htc := inc_cases t ht2
    have hdc := inc_cases d hd2
    simp only [fromMemoryLoop, sCost_mk, tCost_mk, delta_mk] at h
    set s' := s + (1 - s / U32MAX) with hsdef
    set t' := t + (1 - t / U32MAX) with htdef
    set d' := d + (1 - d / U32MAX) with hddef
    have hv1 : validP ⟨s', t, d⟩ :=
      ⟨(by omega : 1 ≤ s'), ht1, hd1, (by omega : s' ≤ U32MAX), ht2, hd2⟩
    have hv2 : validP ⟨s', t', d⟩ :=
      ⟨(by omega : 1 ≤ s'), (by omega : 1 ≤ t'), hd1,
       (by omega : s' ≤ U32MAX), (by omega : t' ≤ U32MAX), hd2⟩
    have hv3 : validP ⟨s', t', d'⟩ :=
      ⟨(by omega : 1 ≤ s'), (by omega : 1 ≤ t'), (by omega : 3 ≤ d'),
       (by omega : s' ≤ U32MAX), (by omega : t' ≤ U32MAX), (by omega : d' ≤ U32MAX)⟩
    simp only [balloonMemory_valid _ hv1, balloonMemory_valid _ hv2,
      balloonMemory_valid _ hv3, sCost_mk, tCost_mk, delta_mk] at h
    split at h
    · cases h
    · split at h
      · cases h
      · split at h
        · cases h
        · next hc3 =>
          split at h
          · next hmax =>
            cases h
            obtain ⟨hms, hmt, hmd⟩ := hmax
            refine ⟨rfl, ?_⟩
            rw [hms, hmt, hmd] at hc3
            omega
          · next hmax =>
            refine ih _ e hv3 ?_ h
            simp only [sCost_mk, tCost_mk, delta_mk]
            simp only [not_and] at hmax
            rcases hsc with ⟨hlt, heq⟩ | ⟨hlt, heq⟩ <;>
              rcases htc with ⟨hlt2, heq2⟩ | ⟨hlt2, heq2⟩ <;>
              rcases hdc with ⟨hlt3, heq3⟩ | ⟨hlt3, heq3⟩ <;>
              (try (exfalso; exact hmax (by omega) (by omega) (by omega))) <;>
              omega

/-- C7: above the default memory, a successful `from_memory(target)` returns
valid params `p` with `p.memory() ≥ target` (produced by the greedy saturating
increment loop embodied in `fromMemoryLoop`), and it fails `NotFound` exactly
when the memory at the fully saturated coefficients
`(u32::MAX, u32::MAX, u32::MAX)` is still below the target. -/
theorem C7_from_memory_greedy (target : Int) :
    (∀ q, fromMemory target = .ok q →
      validP q ∧ balloonMemory q = .ok (memInt q.s_cost q.t_cost q.delta)
      ∧ target ≤ memInt q.s_cost q.t_cost q.delta)
    ∧ (fromMemory target = .error .NotFound ↔
        memInt U32MAX U32MAX U32MAX < target) := by
  have hvdef : validP defaultParams := by
    refine ⟨by norm_num [defaultParams], by norm_num [defaultParams],
      by norm_num [defaultParams], ?_, ?_, ?_⟩ <;> norm_num [defaultParams, U32MAX]
  have hdm : balloonMemory defaultParams = .ok 64 := by decide
  have hmax64 : (64 : Int) ≤ memInt U32MAX U32MAX U32MAX := by decide
  constructor
  · intro q h
    simp only [fromMemory, hdm] at h
    split at h
    · cases h
    · split at h
      · next heq =>
        cases h
        refine ⟨hvdef, balloonMemory_valid _ hvdef, ?_⟩
        have : memInt 1 1 3 = 64 := by decide
        simp only [defaultParams, this]
        omega
      · obtain ⟨hq1, hq2⟩ := fromMemoryLoop_ok target (2 ^ 32) defaultParams q hvdef h
        exact ⟨hq1, balloonMemory_valid _ hq1, hq2⟩
  · constructor
    · intro h
      simp only [fromMemory, hdm] at h
      split at h
      · cases h
      · split at h
        · cases h
        · exact (fromMemoryLoop_err target (2 ^ 32) defaultParams _ hvdef
            (by norm_num [defaultParams, U32MAX]) h).2
    · intro hM
      have htgt : ¬ target < 64 := by omega
      have htgt2 : ¬ target = 64 := by omega
      simp only [fromMemory, hdm, if_neg htgt, if_neg htgt2]
      cases hres : fromMemoryLoop target (2 ^ 32) defaultParams with
      | ok q =>
        exfalso
        obtain ⟨⟨h1, h2, h3, h4, h5, h6⟩, hq2⟩ :=
          fromMemoryLoop_ok target (2 ^ 32) defaultParams q hvdef hres
        have := memInt_le_max q.s_cost q.t_cost q.delta h1 h2 (by omega) h4 h5 h6
        omega
      | error e =>
        have := fromMemoryLoop_err target (2 ^ 32) defaultParams e hvdef
          (by norm_num [defaultParams, U32MAX]) hres
        rw [this.1]

theorem C7_from_memory_greedy_witness :
    validP ⟨2, 1, 3⟩ ∧ balloonMemory ⟨2, 1, 3⟩ = .ok (memInt 2 1 3)
    ∧ (65 : Int) ≤ memInt 2 1 3 :=
  (C7_from_memory_greedy 65).1 ⟨2, 1, 3⟩ (by decide)

end Yobicrypto
